import Mathlib

/-!
Verification development for `secretflow/ml/boost/sgb_v/core/split_tree_trainer/order_map_context.py`.

The module computes a quantile binning ("order map") of a feature matrix:
`_qcut` bins one column, `build_maps` aggregates per-feature results into an
`OrderMapContext`, and read accessors expose the stored state.

Modelling choices:
* feature values are modelled as `Int` (the algorithm only uses ordering and
  equality, so integer-valued float data is represented exactly);
* the `+inf` sentinel used for padding is the `SP.inf` constructor;
* `numpy` int8 storage of the order map is modelled by `toInt8` (wrap mod 256);
* Python exceptions (`assert`, `ZeroDivisionError` on `buckets = 0`,
  `IndexError` from `split_points[-1]` on an empty list) become `Except.error`;
* Python `math.ceil(a / b)` on non-negative ints is `ceilDiv`.
-/

namespace OrderMapCtx

/-- `math.ceil(a / b)` for naturals (`b > 0`; the `b = 0` case is guarded by an
explicit `ZeroDivisionError` branch before any use). -/
def ceilDiv (a b : Nat) : Nat := (a + b - 1) / b

/-- Storing a natural number into a numpy `int8` cell: wrap into `[-128, 127]`. -/
def toInt8 (n : Nat) : Int := ((n : Int) + 128) % 256 - 128

/-- A stored split point: either a finite value or the `float('inf')` sentinel. -/
inductive SP where
  | fin (v : Int)
  | inf
deriving DecidableEq, Repr

/-- `s <= x` for a stored split point `s` and a data value `x`. -/
def SP.leInt : SP → Int → Prop
  | .fin v, x => v ≤ x
  | .inf, _ => False

instance (s : SP) (x : Int) : Decidable (SP.leInt s x) :=
  match s with
  | .fin v => (inferInstance : Decidable (v ≤ x))
  | .inf => isFalse (fun h => h)

/-- `x < s` for a data value `x` and a stored split point `s`. -/
def SP.gtInt : SP → Int → Prop
  | .fin v, x => x < v
  | .inf, _ => True

instance (s : SP) (x : Int) : Decidable (SP.gtInt s x) :=
  match s with
  | .fin v => (inferInstance : Decidable (x < v))
  | .inf => isTrue trivial

/-- The mutable locals of the `for v in sorted_x` loop of `_qcut`. -/
structure QS where
  cat : List Int        -- value_category
  lastv : Option Int    -- last_value
  sps : List Int        -- split_points
  rem : Nat             -- remained_count
  exp : Nat             -- expected_bin_count
  cur : Nat             -- current_bin_count
deriving DecidableEq, Repr

/-- The `for v in sorted_x` loop of `_qcut`, including the `break` once
`len(split_points) == buckets - 1`. -/
def qcutWalk (b : Nat) : List Int → QS → QS
  | [], st => st
  | v :: rest, st =>
    if st.lastv = some v then
      qcutWalk b rest { st with cur := st.cur + 1 }
    else
      if st.exp ≤ st.cur then
        if (st.sps ++ [v]).length = b - 1 then
          { st with cat := if st.cat.length ≤ b then st.cat ++ [v] else st.cat,
                    sps := st.sps ++ [v] }
        else
          qcutWalk b rest
            { cat := if st.cat.length ≤ b then st.cat ++ [v] else st.cat,
              lastv := some v, sps := st.sps ++ [v], rem := st.rem - st.cur,
              exp := ceilDiv (st.rem - st.cur) (b - (st.sps ++ [v]).length), cur := 1 }
      else
        qcutWalk b rest
          { st with cat := if st.cat.length ≤ b then st.cat ++ [v] else st.cat,
                    lastv := some v, cur := st.cur + 1 }

/-- The binary-search loop body of `upper_bound_bin` (`count`/`pos` state).
The first argument is fuel: `count` strictly decreases on every iteration, so
starting the fuel at the initial `count` makes the fuel-out branch unreachable
and keeps the recursion structural (hence kernel-reducible). -/
def upperBoundGo (sp : List Int) (x : Int) : Nat → Nat → Nat → Nat
  | 0, _, pos => pos
  | _ + 1, 0, pos => pos
  | fuel + 1, c + 1, pos =>
    if x = sp.getD (pos + (c + 1) / 2) 0 then pos + (c + 1) / 2 + 1
    else if sp.getD (pos + (c + 1) / 2) 0 < x then
      upperBoundGo sp x fuel (c - (c + 1) / 2) (pos + (c + 1) / 2 + 1)
    else upperBoundGo sp x fuel ((c + 1) / 2) pos

/-- `upper_bound_bin` from `_qcut`: binary search over the split points. -/
def upperBoundBin (sp : List Int) (x : Int) : Nat :=
  upperBoundGo sp x sp.length sp.length 0

/-- The initial loop state of `_qcut` on a column of `n` samples. -/
def qcutInit (b n : Nat) : QS := ⟨[], none, [], n, ceilDiv n b, 0⟩

/-- The loop state of `_qcut` after the walk over the sorted column. -/
def qcutState (b : Nat) (x : List Int) : QS :=
  let srt := List.insertionSort (· ≤ ·) x
  qcutWalk b srt (qcutInit b srt.length)

/-- `OrderMapContext._qcut`: returns the bucket index of every sample of the
column (in original order) together with the unpadded split points. -/
def qcut (b : Nat) (x : List Int) : Except String (List Nat × List Int) :=
  if (List.insertionSort (· ≤ ·) x).length = 0 then .error "can not qcut empty x"
  else if b = 0 then .error "ZeroDivisionError: division by zero"
  else if (qcutState b x).cat.length ≤ b then
    -- full dataset category count <= buckets: use categories as split points
    .ok (x.map (upperBoundBin ((qcutState b x).cat.drop 1)), (qcutState b x).cat.drop 1)
  else if (qcutState b x).sps = [] then .error "IndexError: list index out of range"
  else if (qcutState b x).sps.getLastD 0 ≠ (List.insertionSort (· ≤ ·) x).getLastD 0 then
    -- add max sample value into split_points like xgboost
    .ok (x.map (upperBoundBin
          ((qcutState b x).sps ++ [(List.insertionSort (· ≤ ·) x).getLastD 0])),
        (qcutState b x).sps ++ [(List.insertionSort (· ≤ ·) x).getLastD 0])
  else
    .ok (x.map (upperBoundBin (qcutState b x).sps), (qcutState b x).sps)

/-- The state of an `OrderMapContext` object: every field is `None` after
`__init__` and only `build_maps` fills them (`order_map_shape` is an attribute
that does not even exist before the first build). -/
structure OrderMapContext where
  order_map : Option (List (List Int))
  split_points : Option (List (List SP))
  feature_buckets : Option (List Nat)
  features : Option Nat
  buckets : Option Nat
  order_map_shape : Option (Nat × Nat)
deriving DecidableEq, Repr

/-- A freshly constructed context (`OrderMapContext.__init__`). -/
def initCtx : OrderMapContext := ⟨none, none, none, none, none, none⟩

/-- Column `f` of the feature matrix (`x[:, f]`). -/
def column (x : List (List Int)) (f : Nat) : List Int :=
  x.map (fun row => row.getD f 0)

/-- The per-feature body of the loop of `build_maps`: qcut each feature, store
its int8 bins column, its `total_buckets` count and its padded split points.
The `while total_buckets <= self.buckets` padding loop runs
`buckets + 1 - len(split_point)` times, so `total_buckets` ends at
`max len (buckets + 1)` and the list is padded with that many `inf` entries. -/
def buildLoop (buckets : Nat) (x : List (List Int)) :
    List Nat → Except String (List (List Int) × List Nat × List (List SP))
  | [] => .ok ([], [], [])
  | f :: fs =>
    match qcut buckets (column x f) with
    | .error e => .error e
    | .ok (bins, sp) =>
      match buildLoop buckets x fs with
      | .error e => .error e
      | .ok (cols, fb, sps) =>
        .ok ((bins.map toInt8) :: cols,
             (Nat.max sp.length (buckets + 1)) :: fb,
             (sp.map SP.fin ++ List.replicate (buckets + 1 - sp.length) SP.inf) :: sps)

/-- `OrderMapContext.build_maps`.  On success all fields are replaced by the
freshly computed values.  (In Python an exception raised mid-loop leaves
partially written fields behind; all theorems below only reason about
successful builds, so the error value carries no partial state.) -/
def buildMaps (_c : OrderMapContext) (x : List (List Int)) (buckets : Nat) :
    Except String OrderMapContext :=
  match buildLoop buckets x (List.range (x.headD []).length) with
  | .error e => .error e
  | .ok (cols, fb, sps) =>
    .ok { order_map := some ((List.range x.length).map fun i => cols.map fun col => col.getD i 0),
          split_points := some sps,
          feature_buckets := some fb,
          features := some (x.headD []).length,
          buckets := some buckets,
          order_map_shape := some (x.length, (x.headD []).length) }

/-- `get_order_map`: returns the field as is (returns `None`, without raising,
before any build). -/
def get_order_map (c : OrderMapContext) : Except String (Option (List (List Int))) :=
  .ok c.order_map

/-- `get_features`. -/
def get_features (c : OrderMapContext) : Except String (Option Nat) :=
  .ok c.features

/-- `get_feature_buckets`. -/
def get_feature_buckets (c : OrderMapContext) : Except String (Option (List Nat)) :=
  .ok c.feature_buckets

/-- Python list subscript `l[i]` with an `int` index: negative indices count
from the end, anything outside `[-len, len)` raises `IndexError`. -/
def pyGet (l : List Nat) (i : Int) : Except String Nat :=
  if 0 ≤ (if i < 0 then i + l.length else i) ∧
      (if i < 0 then i + l.length else i) < l.length then
    .ok (l.getD (if i < 0 then i + l.length else i).toNat 0)
  else .error "IndexError: list index out of range"

/-- `get_feature_bucket_at`: subscripting `None` raises `TypeError` before a
build; an out-of-range index raises `IndexError`. -/
def get_feature_bucket_at (c : OrderMapContext) (i : Int) : Except String Nat :=
  match c.feature_buckets with
  | none => .error "TypeError: NoneType object is not subscriptable"
  | some fb => pyGet fb i

/-- `get_split_points`. -/
def get_split_points (c : OrderMapContext) : Except String (Option (List (List SP))) :=
  .ok c.split_points

/-- `get_order_map_shape`: the attribute `order_map_shape` is only created by
`build_maps`, so reading it before a build raises `AttributeError`. -/
def get_order_map_shape (c : OrderMapContext) : Except String (Nat × Nat) :=
  match c.order_map_shape with
  | none => .error "AttributeError: order_map_shape"
  | some s => .ok s

/-- The distinct values of a sorted list, in order, starting from a `last seen`
value (mirrors the `v != last_value` test of the walk).  On a sorted column,
`distinctsFrom none` is the ascending list of distinct values. -/
def distinctsFrom : Option Int → List Int → List Int
  | _, [] => []
  | last, v :: rest =>
    if last = some v then distinctsFrom last rest
    else v :: distinctsFrom (some v) rest

/-- The finite (non-sentinel) entries at the front of a stored split-point
list, i.e. the unpadded split points. -/
def finPart : List SP → List Int
  | .fin v :: rest => v :: finPart rest
  | _ => []

/-- `s < x` for a stored split point `s` and a data value `x`. -/
def SP.ltInt : SP → Int → Prop
  | .fin v, x => v < x
  | .inf, _ => False

instance (s : SP) (x : Int) : Decidable (SP.ltInt s x) :=
  match s with
  | .fin v => (inferInstance : Decidable (v < x))
  | .inf => isFalse (fun h => h)

/-- `x <= s` for a data value `x` and a stored split point `s`. -/
def SP.geInt : SP → Int → Prop
  | .fin v, x => x ≤ v
  | .inf, _ => True

instance (s : SP) (x : Int) : Decidable (SP.geInt s x) :=
  match s with
  | .fin v => (inferInstance : Decidable (x ≤ v))
  | .inf => isTrue trivial

/-- The bucket predicate claimed by the spec (right-closed intervals): `b` is
the bucket of `x` iff all split points strictly below index `b` are `< x` and
all from index `b` on are `>= x`, i.e. `split_points[b-1] < x <= split_points[b]`
with `split_points[-1] = -inf`. -/
def rightClosedBucket (padded : List SP) (x : Int) (b : Nat) : Prop :=
  (∀ j, j < b → SP.ltInt (padded.getD j SP.inf) x) ∧
  (∀ j, j < padded.length → b ≤ j → SP.geInt (padded.getD j SP.inf) x)

/-- The bucket predicate the code actually implements (left-closed intervals):
all split points strictly below index `b` are `<= x` and all from index `b` on
are `> x`, i.e. `split_points[b-1] <= x < split_points[b]`. -/
def leftClosedBucket (padded : List SP) (x : Int) (b : Nat) : Prop :=
  (∀ j, j < b → SP.leInt (padded.getD j SP.inf) x) ∧
  (∀ j, j < padded.length → b ≤ j → SP.gtInt (padded.getD j SP.inf) x)

/-- `r` is the threshold index of `x` in `sp`: every entry strictly below `r`
is `<= x` and every entry from `r` on is `> x`. -/
def IsThreshold (sp : List Int) (x : Int) (r : Nat) : Prop :=
  r ≤ sp.length ∧ (∀ j, j < r → sp.getD j 0 ≤ x) ∧
  (∀ j, r ≤ j → j < sp.length → x < sp.getD j 0)

/-! ### Frame model for `build_maps`: the input matrix is threaded through
every operation that touches it, so that "the build does not modify its input"
is a provable statement.  Each numpy primitive returns the post-call state of
its array argument next to its result: `np.sort` and `np.vectorize` allocate
fresh arrays and leave the argument untouched, and `x[:, f]` is a read. -/

/-- `np.sort(col)`: (state of `col` after the call, the fresh sorted copy). -/
def npSort (col : List Int) : List Int × List Int :=
  (col, List.insertionSort (· ≤ ·) col)

/-- `np.vectorize(upper_bound_bin)(col)`: (state of `col` after the call, the
fresh array of bucket indices). -/
def npVectorize (sp : List Int) (col : List Int) : List Int × List Nat :=
  (col, col.map (upperBoundBin sp))

/-- `_qcut` with the state of its input column threaded through. -/
def qcutFr (b : Nat) (x : List Int) : List Int × Except String (List Nat × List Int) :=
  if ((npSort x).2).length = 0 then ((npSort x).1, .error "can not qcut empty x")
  else if b = 0 then ((npSort x).1, .error "ZeroDivisionError: division by zero")
  else if (qcutState b ((npSort x).1)).cat.length ≤ b then
    ((npVectorize ((qcutState b ((npSort x).1)).cat.drop 1) ((npSort x).1)).1,
     .ok ((npVectorize ((qcutState b ((npSort x).1)).cat.drop 1) ((npSort x).1)).2,
          (qcutState b ((npSort x).1)).cat.drop 1))
  else if (qcutState b ((npSort x).1)).sps = [] then
    ((npSort x).1, .error "IndexError: list index out of range")
  else if (qcutState b ((npSort x).1)).sps.getLastD 0 ≠ ((npSort x).2).getLastD 0 then
    ((npVectorize ((qcutState b ((npSort x).1)).sps ++ [((npSort x).2).getLastD 0])
        ((npSort x).1)).1,
     .ok ((npVectorize ((qcutState b ((npSort x).1)).sps ++ [((npSort x).2).getLastD 0])
        ((npSort x).1)).2,
      (qcutState b ((npSort x).1)).sps ++ [((npSort x).2).getLastD 0]))
  else
    ((npVectorize (qcutState b ((npSort x).1)).sps ((npSort x).1)).1,
     .ok ((npVectorize (qcutState b ((npSort x).1)).sps ((npSort x).1)).2,
      (qcutState b ((npSort x).1)).sps))

/-- Write a column back into the matrix (`x[:, f] = col`); used to account for
the column view handed to `_qcut`: whatever state the view is in afterwards is
part of the state of `x`. -/
def writeColumn (x : List (List Int)) (f : Nat) (col : List Int) : List (List Int) :=
  List.zipWith (fun row v => row.set f v) x col

/-- The feature loop of `build_maps` with the state of `x` threaded through. -/
def buildLoopFr (buckets : Nat) : List (List Int) → List Nat →
    List (List Int) × Except String (List (List Int) × List Nat × List (List SP))
  | x, [] => (x, .ok ([], [], []))
  | x, f :: fs =>
    match qcutFr buckets (column x f) with
    | (colAfter, .error e) => (writeColumn x f colAfter, .error e)
    | (colAfter, .ok (bins, sp)) =>
      match buildLoopFr buckets (writeColumn x f colAfter) fs with
      | (xAfter, .error e) => (xAfter, .error e)
      | (xAfter, .ok (cols, fb, sps)) =>
        (xAfter, .ok ((bins.map toInt8) :: cols,
             (Nat.max sp.length (buckets + 1)) :: fb,
             (sp.map SP.fin ++ List.replicate (buckets + 1 - sp.length) SP.inf) :: sps))

/-- `build_maps` with the state of `x` threaded through. -/
def buildMapsFr (x : List (List Int)) (buckets : Nat) :
    List (List Int) × Except String OrderMapContext :=
  match buildLoopFr buckets x (List.range (x.headD []).length) with
  | (xAfter, .error e) => (xAfter, .error e)
  | (xAfter, .ok (cols, fb, sps)) =>
    (xAfter,
     .ok { order_map := some ((List.range x.length).map fun i => cols.map fun col => col.getD i 0),
           split_points := some sps,
           feature_buckets := some fb,
           features := some (x.headD []).length,
           buckets := some buckets,
           order_map_shape := some (x.length, (x.headD []).length) })

/-! ### Concrete instances used by counterexamples and witnesses -/

/-- The 4-sample, 1-feature matrix `[[1],[2],[3],[4]]`. -/
def X4 : List (List Int) := [[1], [2], [3], [4]]

/-- The context produced by `build_maps(X4, buckets=2)`. -/
def ctx4 : OrderMapContext :=
  { order_map := some [[0], [0], [1], [2]],
    split_points := some [[SP.fin 3, SP.fin 4, SP.inf]],
    feature_buckets := some [3],
    features := some 1,
    buckets := some 2,
    order_map_shape := some (4, 1) }

/-- The 5-sample constant matrix `[[5],[5],[5],[5],[5]]`. -/
def X5 : List (List Int) := [[5], [5], [5], [5], [5]]

/-- The context produced by `build_maps(X5, buckets=4)`. -/
def ctx5 : OrderMapContext :=
  { order_map := some [[0], [0], [0], [0], [0]],
    split_points := some [[SP.inf, SP.inf, SP.inf, SP.inf, SP.inf]],
    feature_buckets := some [5],
    features := some 1,
    buckets := some 4,
    order_map_shape := some (5, 1) }

/-- The column `1, 2, ..., 257`: 257 distinct values. -/
def bigCol : List Int := (List.range 257).map (fun k => (k : Int) + 1)

/-- `bigCol` as a 1-feature matrix. -/
def bigX : List (List Int) := bigCol.map (fun v => [v])

/-- The order map stored by `build_maps(bigX, buckets=128)`. -/
def bigOm : List (List Int) :=
  match buildMaps initCtx bigX 128 with
  | .ok ctx => ctx.order_map.getD []
  | .error _ => []

/-- The bins computed by `_qcut` (before int8 storage), empty on error. -/
def qcutBins (b : Nat) (col : List Int) : List Nat :=
  match qcut b col with
  | .ok (bins, _) => bins
  | .error _ => []

/-! ### Generic list helpers -/

theorem qcutState_eq (b : Nat) (col : List Int) :
    qcutState b col = qcutWalk b (List.insertionSort (· ≤ ·) col)
      (qcutInit b (List.insertionSort (· ≤ ·) col).length) := rfl

theorem getD_lt_getD_of_pairwise {sp : List Int} (hs : sp.Pairwise (· < ·))
    {i j : Nat} (hij : i < j) (hj : j < sp.length) :
    sp.getD i 0 < sp.getD j 0 := by
  have hi : i < sp.length := Nat.lt_trans hij hj
  rw [List.getD_eq_getElem?_getD, List.getD_eq_getElem?_getD,
    List.getElem?_eq_getElem hi, List.getElem?_eq_getElem hj]
  exact List.pairwise_iff_getElem.mp hs i j hi hj hij

theorem getD_le_getD_of_pairwise {sp : List Int} (hs : sp.Pairwise (· < ·))
    {i j : Nat} (hij : i ≤ j) (hj : j < sp.length) :
    sp.getD i 0 ≤ sp.getD j 0 := by
  rcases Nat.lt_or_ge i j with h | h
  · exact le_of_lt (getD_lt_getD_of_pairwise hs h hj)
  · have : i = j := Nat.le_antisymm hij h
    subst this; exact le_refl _

/-! ### Binary search: `upper_bound_bin` computes the threshold index -/

theorem upperBoundGo_threshold {sp : List Int} {x : Int} (hs : sp.Pairwise (· < ·)) :
    ∀ fuel c pos, c ≤ fuel → pos + c ≤ sp.length →
      (∀ j, j < pos → sp.getD j 0 ≤ x) →
      (∀ j, pos + c ≤ j → j < sp.length → x < sp.getD j 0) →
      IsThreshold sp x (upperBoundGo sp x fuel c pos) := by
  intro fuel
  induction fuel with
  | zero =>
    intro c pos hc hlen hlow hhigh
    have hc0 : c = 0 := Nat.le_zero.mp hc
    subst hc0
    exact show IsThreshold sp x pos from
      ⟨by omega, hlow, fun j hj => hhigh j (by omega)⟩
  | succ fuel ih =>
    intro c pos hc hlen hlow hhigh
    cases c with
    | zero =>
      exact show IsThreshold sp x pos from
        ⟨by omega, hlow, fun j hj => hhigh j (by omega)⟩
    | succ c =>
      have hstep : (c + 1) / 2 ≤ c := by omega
      have hidx : pos + (c + 1) / 2 < sp.length := by omega
      rw [upperBoundGo]
      by_cases hxeq : x = sp.getD (pos + (c + 1) / 2) 0
      · rw [if_pos hxeq]
        refine ⟨by omega, ?_, ?_⟩
        · intro j hj
          calc sp.getD j 0 ≤ sp.getD (pos + (c + 1) / 2) 0 :=
                getD_le_getD_of_pairwise hs (by omega) hidx
            _ = x := hxeq.symm
        · intro j hj hjlen
          calc x = sp.getD (pos + (c + 1) / 2) 0 := hxeq
            _ < sp.getD j 0 := getD_lt_getD_of_pairwise hs (by omega) hjlen
      · rw [if_neg hxeq]
        by_cases hvlt : sp.getD (pos + (c + 1) / 2) 0 < x
        · rw [if_pos hvlt]
          refine ih (c - (c + 1) / 2) (pos + (c + 1) / 2 + 1) (by omega) (by omega) ?_ ?_
          · intro j hj
            exact le_of_lt (lt_of_le_of_lt
              (getD_le_getD_of_pairwise hs (by omega) hidx) hvlt)
          · intro j hj hjlen
            exact hhigh j (by omega) hjlen
        · rw [if_neg hvlt]
          refine ih ((c + 1) / 2) pos (by omega) (by omega) hlow ?_
          intro j hj hjlen
          have hxv : x < sp.getD (pos + (c + 1) / 2) 0 :=
            lt_of_le_of_ne (not_lt.mp hvlt) hxeq
          rcases Nat.lt_or_ge (pos + (c + 1) / 2) j with h | h
          · exact lt_trans hxv (getD_lt_getD_of_pairwise hs h hjlen)
          · have : j = pos + (c + 1) / 2 := by omega
            subst this; exact hxv

theorem upperBoundBin_threshold {sp : List Int} {x : Int} (hs : sp.Pairwise (· < ·)) :
    IsThreshold sp x (upperBoundBin sp x) :=
  upperBoundGo_threshold hs sp.length sp.length 0 (le_refl _) (by omega)
    (fun j hj => absurd hj (Nat.not_lt_zero j))
    (fun j hj hjlen => absurd hjlen (by omega))

theorem pairwise_append_singleton {l : List Int} {v : Int}
    (h : l.Pairwise (· < ·)) (hall : ∀ c ∈ l, c < v) :
    (l ++ [v]).Pairwise (· < ·) :=
  List.pairwise_append.mpr
    ⟨h, List.pairwise_singleton _ _, fun a ha c hc => by
      rw [List.mem_singleton] at hc; subst hc; exact hall a ha⟩

/-- Invariant preservation for the `_qcut` walk when `buckets >= 2`: the
categories and split points stay strictly ascending, come from the data, and
at most `buckets - 1` split points are ever emitted. -/
theorem qcutWalk_inv {b : Nat} (hb : 2 ≤ b) (full : List Int) :
    ∀ (rest : List Int) (st : QS),
      rest.Sorted (· ≤ ·) →
      (∀ r ∈ rest, r ∈ full) →
      st.cat.Pairwise (· < ·) →
      st.sps.Pairwise (· < ·) →
      st.sps.length ≤ b - 2 →
      (∀ c ∈ st.cat, c ∈ full) →
      (∀ s ∈ st.sps, s ∈ full) →
      (st.lastv = none → st.cat = [] ∧ st.sps = []) →
      (∀ l, st.lastv = some l → l ∈ full ∧ (∀ c ∈ st.cat, c ≤ l) ∧
        (∀ s ∈ st.sps, s ≤ l) ∧ (∀ r ∈ rest, l ≤ r)) →
      ((qcutWalk b rest st).cat.Pairwise (· < ·) ∧
       (qcutWalk b rest st).sps.Pairwise (· < ·) ∧
       (qcutWalk b rest st).sps.length ≤ b - 1 ∧
       (∀ c ∈ (qcutWalk b rest st).cat, c ∈ full) ∧
       (∀ s ∈ (qcutWalk b rest st).sps, s ∈ full)) := by
  intro rest
  induction rest with
  | nil =>
    intro st _ _ hcat hsps hlen hcatf hspsf _ _
    simp only [qcutWalk]
    exact ⟨hcat, hsps, by omega, hcatf, hspsf⟩
  | cons v rest ih =>
    intro st hsorted hrestf hcat hsps hlen hcatf hspsf hnone hsome
    have hsorted' : rest.Sorted (· ≤ ·) := (List.sorted_cons.mp hsorted).2
    have hvle : ∀ r ∈ rest, v ≤ r := (List.sorted_cons.mp hsorted).1
    have hrestf' : ∀ r ∈ rest, r ∈ full := fun r hr => hrestf r (List.mem_cons_of_mem v hr)
    have hvfull : v ∈ full := hrestf v (List.mem_cons_self v rest)
    rw [qcutWalk]
    by_cases hdup : st.lastv = some v
    · rw [if_pos hdup]
      refine ih { st with cur := st.cur + 1 } hsorted' hrestf' hcat hsps hlen hcatf hspsf
        (fun h => hnone h) ?_
      intro l hl
      obtain ⟨h1, h2, h3, h4⟩ := hsome l hl
      exact ⟨h1, h2, h3, fun r hr => h4 r (List.mem_cons_of_mem v hr)⟩
    · rw [if_neg hdup]
      -- facts about the new value v relative to the previous state
      have hcatlt : ∀ c ∈ st.cat, c < v := by
        intro c hc
        cases hlv : st.lastv with
        | none => rw [(hnone hlv).1] at hc; cases hc
        | some l =>
          obtain ⟨_, h2, _, h4⟩ := hsome l hlv
          have hlev : l ≤ v := h4 v (List.mem_cons_self v rest)
          have hlnev : l ≠ v := fun e => hdup (by rw [hlv, e])
          exact lt_of_le_of_lt (h2 c hc) (lt_of_le_of_ne hlev hlnev)
      have hspslt : ∀ s ∈ st.sps, s < v := by
        intro s hs
        cases hlv : st.lastv with
        | none => rw [(hnone hlv).2] at hs; cases hs
        | some l =>
          obtain ⟨_, _, h3, h4⟩ := hsome l hlv
          have hlev : l ≤ v := h4 v (List.mem_cons_self v rest)
          have hlnev : l ≠ v := fun e => hdup (by rw [hlv, e])
          exact lt_of_le_of_lt (h3 s hs) (lt_of_le_of_ne hlev hlnev)
      have hcat' : (if st.cat.length ≤ b then st.cat ++ [v] else st.cat).Pairwise (· < ·) := by
        split
        · exact pairwise_append_singleton hcat hcatlt
        · exact hcat
      have hcatf' : ∀ c ∈ (if st.cat.length ≤ b then st.cat ++ [v] else st.cat), c ∈ full := by
        split
        · intro c hc
          rcases List.mem_append.mp hc with h | h
          · exact hcatf c h
          · rw [List.mem_singleton] at h; subst h; exact hvfull
        · exact hcatf
      have hcatle' : ∀ c ∈ (if st.cat.length ≤ b then st.cat ++ [v] else st.cat), c ≤ v := by
        split
        · intro c hc
          rcases List.mem_append.mp hc with h | h
          · exact le_of_lt (hcatlt c h)
          · rw [List.mem_singleton] at h; subst h; exact le_refl _
        · exact fun c hc => le_of_lt (hcatlt c hc)
      by_cases hsplit : st.exp ≤ st.cur
      · rw [if_pos hsplit]
        have hsps' : (st.sps ++ [v]).Pairwise (· < ·) :=
          pairwise_append_singleton hsps hspslt
        have hspsf' : ∀ s ∈ st.sps ++ [v], s ∈ full := by
          intro s hs
          rcases List.mem_append.mp hs with h | h
          · exact hspsf s h
          · rw [List.mem_singleton] at h; subst h; exact hvfull
        by_cases hbrk : (st.sps ++ [v]).length = b - 1
        · rw [if_pos hbrk]
          exact ⟨hcat', hsps', by rw [hbrk], hcatf', hspsf'⟩
        · rw [if_neg hbrk]
          have hlen' : (st.sps ++ [v]).length ≤ b - 2 := by
            rw [List.length_append] at *
            simp only [List.length_singleton] at *
            omega
          refine ih _ hsorted' hrestf' hcat' hsps' hlen' hcatf' hspsf'
            (fun h => by cases h) ?_
          intro l hl
          have hlv : v = l := by simpa using hl
          subst hlv
          refine ⟨hvfull, hcatle', ?_, hvle⟩
          intro s hs
          rcases List.mem_append.mp hs with h | h
          · exact le_of_lt (hspslt s h)
          · rw [List.mem_singleton] at h; subst h; exact le_refl _
      · rw [if_neg hsplit]
        refine ih _ hsorted' hrestf' hcat' hsps hlen hcatf' hspsf
          (fun h => by cases h) ?_
        intro l hl
        have hlv : v = l := by simpa using hl
        subst hlv
        exact ⟨hvfull, hcatle', fun s hs => le_of_lt (hspslt s hs), hvle⟩

/-- With `buckets = 1` the walk can never emit a split point: the expected bin
count starts at the whole sample count and the running count stays below it. -/
theorem qcutWalk_one :
    ∀ (rest : List Int) (st : QS), st.sps = [] → st.cur + rest.length ≤ st.exp →
      (qcutWalk 1 rest st).sps = [] := by
  intro rest
  induction rest with
  | nil =>
    intro st hsps _
    simpa only [qcutWalk] using hsps
  | cons v rest ih =>
    intro st hsps hcnt
    rw [List.length_cons] at hcnt
    rw [qcutWalk]
    by_cases hdup : st.lastv = some v
    · rw [if_pos hdup]
      exact ih { st with cur := st.cur + 1 } hsps
        (show st.cur + 1 + rest.length ≤ st.exp by omega)
    · rw [if_neg hdup]
      have hnosplit : ¬ st.exp ≤ st.cur := by omega
      rw [if_neg hnosplit]
      exact ih _ hsps (show st.cur + 1 + rest.length ≤ st.exp by omega)

/-- When the column has at most `b` distinct values, the walk records exactly
the distinct values (in encounter order) as its categories — even when the
`break` fires. -/
theorem qcutWalk_dedup {b : Nat} :
    ∀ (rest : List Int) (st : QS),
      st.cat.length + (distinctsFrom st.lastv rest).length ≤ b →
      (st.lastv = none → st.cat = [] ∧ st.sps = [] ∧ st.cur < st.exp) →
      (∀ l, st.lastv = some l → st.sps.length + 1 ≤ st.cat.length) →
      (qcutWalk b rest st).cat = st.cat ++ distinctsFrom st.lastv rest := by
  intro rest
  induction rest with
  | nil =>
    intro st _ _ _
    simp only [qcutWalk, distinctsFrom, List.append_nil]
  | cons v rest ih =>
    intro st hD1 hnone hD2
    rw [distinctsFrom] at hD1 ⊢
    rw [qcutWalk]
    by_cases hdup : st.lastv = some v
    · simp only [if_pos hdup] at hD1 ⊢
      exact ih { st with cur := st.cur + 1 } hD1
        (fun h => absurd hdup (by rw [h]; simp)) hD2
    · simp only [if_neg hdup] at hD1 ⊢
      rw [List.length_cons] at hD1
      have happend : (if st.cat.length ≤ b then st.cat ++ [v] else st.cat) = st.cat ++ [v] :=
        if_pos (by omega)
      by_cases hsplit : st.exp ≤ st.cur
      · have hd2 : st.sps.length + 1 ≤ st.cat.length := by
          cases hlv : st.lastv with
          | none =>
            obtain ⟨_, _, hce⟩ := hnone hlv
            omega
          | some l => exact hD2 l hlv
        rw [if_pos hsplit]
        by_cases hbrk : (st.sps ++ [v]).length = b - 1
        · rw [if_pos hbrk]
          rw [List.length_append, List.length_singleton] at hbrk
          have hdnil : distinctsFrom (some v) rest = [] :=
            List.length_eq_zero.mp (by omega)
          show (if st.cat.length ≤ b then st.cat ++ [v] else st.cat) =
            st.cat ++ v :: distinctsFrom (some v) rest
          rw [happend, hdnil]
        · rw [if_neg hbrk, happend]
          have hrec := ih
            { cat := st.cat ++ [v], lastv := some v, sps := st.sps ++ [v],
              rem := st.rem - st.cur,
              exp := ceilDiv (st.rem - st.cur) (b - (st.sps ++ [v]).length), cur := 1 }
            (by simp only [List.length_append, List.length_singleton]; omega)
            (fun h => by cases h)
            (fun l' _ => by
              simp only [List.length_append, List.length_singleton]
              omega)
          rw [hrec]
          simp
      · rw [if_neg hsplit, happend]
        have hd2' : st.sps.length + 1 ≤ st.cat.length + 1 := by
          cases hlv : st.lastv with
          | none =>
            obtain ⟨_, hs, _⟩ := hnone hlv
            rw [hs]
            simp
          | some l => have := hD2 l hlv; omega
        have hrec := ih
          { st with cat := st.cat ++ [v], lastv := some v, cur := st.cur + 1 }
          (by simp only [List.length_append, List.length_singleton]; omega)
          (fun h => by cases h)
          (fun l' _ => by
            simp only [List.length_append, List.length_singleton]
            omega)
        rw [hrec]
        simp

theorem threshold_unique {sp : List Int} {x : Int} {r₁ r₂ : Nat} :
    IsThreshold sp x r₁ → IsThreshold sp x r₂ → r₁ = r₂ := by
  intro h₁ h₂
  by_contra hne
  rcases Nat.lt_or_ge r₁ r₂ with h | h
  · have hlt : r₁ < sp.length := Nat.lt_of_lt_of_le h h₂.1
    exact absurd (h₂.2.1 r₁ h) (not_le.mpr (h₁.2.2 r₁ (le_refl _) hlt))
  · have h' : r₂ < r₁ := Nat.lt_of_le_of_ne h (fun e => hne e.symm)
    have hlt : r₂ < sp.length := Nat.lt_of_lt_of_le h' h₁.1
    exact absurd (h₁.2.1 r₂ h') (not_le.mpr (h₂.2.2 r₂ (le_refl _) hlt))

/-! ### Sorted-list and distinct-value helpers -/

theorem getLastD_mem : ∀ (l : List Int) (d : Int), l ≠ [] → l.getLastD d ∈ l := by
  intro l
  induction l with
  | nil => intro d h; exact absurd rfl h
  | cons a t ih =>
    intro d _
    rw [List.getLastD_cons]
    cases t with
    | nil => simp
    | cons b t' => exact List.mem_cons_of_mem a (ih a (by simp))

theorem le_getLastD_of_sorted :
    ∀ {l : List Int} {a : Int} (d : Int), l.Sorted (· ≤ ·) → a ∈ l → a ≤ l.getLastD d := by
  intro l
  induction l with
  | nil => intro a d _ h; cases h
  | cons b t ih =>
    intro a d hs ha
    rw [List.getLastD_cons]
    rcases List.mem_cons.mp ha with h | h
    · subst h
      cases t with
      | nil => simp
      | cons c t' =>
        exact (List.sorted_cons.mp hs).1 _ (getLastD_mem (c :: t') a (by simp))
    · exact ih b (List.sorted_cons.mp hs).2 h

theorem le_getLastD_of_pairwise {l : List Int} {a : Int} (d : Int)
    (h : l.Pairwise (· < ·)) (ha : a ∈ l) : a ≤ l.getLastD d :=
  le_getLastD_of_sorted d (h.imp le_of_lt) ha

theorem pairwise_of_length_le_one {l : List Int} (h : l.length ≤ 1) :
    l.Pairwise (· < ·) := by
  cases l with
  | nil => exact List.Pairwise.nil
  | cons a t =>
    cases t with
    | nil => exact List.pairwise_singleton _ _
    | cons b t' => simp at h

/-- The ascending distinct values of a sorted list: strictly ascending, drawn
from the list, and strictly above the seed value. -/
theorem distinctsFrom_spec :
    ∀ (l : List Int) (o : Option Int), l.Sorted (· ≤ ·) →
      (∀ lv, o = some lv → ∀ a ∈ l, lv ≤ a) →
      ((distinctsFrom o l).Pairwise (· < ·) ∧
       (∀ a ∈ distinctsFrom o l, a ∈ l) ∧
       (∀ lv, o = some lv → ∀ a ∈ distinctsFrom o l, lv < a)) := by
  intro l
  induction l with
  | nil =>
    intro o _ _
    refine ⟨List.Pairwise.nil, ?_, ?_⟩
    · intro a ha; cases ha
    · intro lv _ a ha; cases ha
  | cons v rest ih =>
    intro o hs hbound
    have hs' : rest.Sorted (· ≤ ·) := (List.sorted_cons.mp hs).2
    have hvle : ∀ r ∈ rest, v ≤ r := (List.sorted_cons.mp hs).1
    rw [distinctsFrom]
    by_cases ho : o = some v
    · rw [if_pos ho]
      obtain ⟨h1, h2, h3⟩ := ih o hs' (fun lv hlv a ha => hbound lv hlv a (List.mem_cons_of_mem v ha))
      exact ⟨h1, fun a ha => List.mem_cons_of_mem v (h2 a ha), h3⟩
    · rw [if_neg ho]
      obtain ⟨h1, h2, h3⟩ := ih (some v) hs' (fun lv hlv a ha => by
        injection hlv with e; subst e; exact hvle a ha)
      refine ⟨List.pairwise_cons.mpr ⟨fun a ha => h3 v rfl a ha, h1⟩, ?_, ?_⟩
      · intro a ha
        rcases List.mem_cons.mp ha with h | h
        · rw [h]; exact List.mem_cons_self v rest
        · exact List.mem_cons_of_mem v (h2 a h)
      · intro lv hlv a ha
        have hlv_lt_v : lv < v := by
          have hle : lv ≤ v := hbound lv hlv v (List.mem_cons_self v rest)
          have hne : lv ≠ v := fun e => ho (by rw [hlv, e])
          exact lt_of_le_of_ne hle hne
        rcases List.mem_cons.mp ha with h | h
        · rw [h]; exact hlv_lt_v
        · exact lt_trans hlv_lt_v (h3 v rfl a h)

theorem ceilDiv_pos {n b : Nat} (hn : 0 < n) (hb : 0 < b) : 0 < ceilDiv n b := by
  rw [ceilDiv]
  rw [Nat.lt_iff_add_one_le, Nat.one_le_div_iff hb]
  omega

/-! ### The `_qcut` specification -/

/-- Facts about every successful `_qcut`: the split points are strictly
ascending, there are at most `buckets` of them, and the returned bins are the
binary-search bucket of each sample. -/
theorem qcut_ok_spec {b : Nat} {col : List Int} {bins : List Nat} {sp : List Int}
    (hb : 0 < b) (h : qcut b col = .ok (bins, sp)) :
    sp.Pairwise (· < ·) ∧ sp.length ≤ b ∧ bins = col.map (upperBoundBin sp) := by
  rw [qcut] at h
  by_cases h0 : (List.insertionSort (· ≤ ·) col).length = 0
  · rw [if_pos h0] at h; cases h
  rw [if_neg h0] at h
  have hbne : ¬ b = 0 := by omega
  rw [if_neg hbne] at h
  have hsorted : (List.insertionSort (· ≤ ·) col).Sorted (· ≤ ·) :=
    List.sorted_insertionSort (· ≤ ·) col
  by_cases hlow : (qcutState b col).cat.length ≤ b
  · rw [if_pos hlow] at h
    injection h with h'
    injection h' with hbins hsp
    have hcat : (qcutState b col).cat.Pairwise (· < ·) := by
      rcases Nat.lt_or_ge b 2 with hb1 | hb2
      · exact pairwise_of_length_le_one (by omega)
      · exact (qcutWalk_inv hb2 (List.insertionSort (· ≤ ·) col) _ _ hsorted
          (fun r hr => hr) List.Pairwise.nil List.Pairwise.nil (by simp [qcutInit])
          (fun c hc => by simp [qcutInit] at hc) (fun s hs => by simp [qcutInit] at hs)
          (fun _ => ⟨rfl, rfl⟩) (fun l hl => by simp [qcutInit] at hl)).1
    subst hsp
    refine ⟨hcat.sublist (List.drop_sublist 1 _), ?_, hbins.symm⟩
    rw [List.length_drop]
    omega
  · rw [if_neg hlow] at h
    by_cases hnil : (qcutState b col).sps = []
    · rw [if_pos hnil] at h; cases h
    rw [if_neg hnil] at h
    have hb2 : 2 ≤ b := by
      rcases Nat.lt_or_ge b 2 with hb1 | hb2
      · exfalso
        have hb1' : b = 1 := by omega
        subst hb1'
        refine hnil (qcutWalk_one _ _ rfl ?_)
        show 0 + (List.insertionSort (· ≤ ·) col).length ≤
          ceilDiv (List.insertionSort (· ≤ ·) col).length 1
        rw [ceilDiv]
        omega
      · exact hb2
    have hinv :=
      qcutWalk_inv hb2 (List.insertionSort (· ≤ ·) col) (List.insertionSort (· ≤ ·) col)
        (qcutInit b (List.insertionSort (· ≤ ·) col).length) hsorted
        (fun r hr => hr) List.Pairwise.nil List.Pairwise.nil (by simp [qcutInit])
        (fun c hc => by simp [qcutInit] at hc) (fun s hs => by simp [qcutInit] at hs)
        (fun _ => ⟨rfl, rfl⟩) (fun l hl => by simp [qcutInit] at hl)
    rw [← qcutState_eq] at hinv
    obtain ⟨_, hsps, hlen, _, hmem⟩ := hinv
    by_cases hlast : (qcutState b col).sps.getLastD 0 ≠ (List.insertionSort (· ≤ ·) col).getLastD 0
    · rw [if_pos hlast] at h
      injection h with h'
      injection h' with hbins hsp
      have hm : ∀ s ∈ (qcutState b col).sps,
          s < (List.insertionSort (· ≤ ·) col).getLastD 0 := by
        intro s hs
        have h1 : s ≤ (qcutState b col).sps.getLastD 0 := le_getLastD_of_pairwise 0 hsps hs
        have h2 : (qcutState b col).sps.getLastD 0 ≤
            (List.insertionSort (· ≤ ·) col).getLastD 0 :=
          le_getLastD_of_sorted 0 hsorted (hmem _ (getLastD_mem _ 0 hnil))
        omega
      subst hsp
      refine ⟨pairwise_append_singleton hsps hm, ?_, hbins.symm⟩
      rw [List.length_append, List.length_singleton]
      omega
    · rw [if_neg hlast] at h
      injection h with h'
      injection h' with hbins hsp
      subst hsp
      exact ⟨hsps, by omega, hbins.symm⟩

theorem getD_drop_one (l : List Int) (i : Nat) (d : Int) :
    (l.drop 1).getD i d = l.getD (1 + i) d := by
  rw [List.getD_eq_getElem?_getD, List.getD_eq_getElem?_getD, List.getElem?_drop]

/-- On a column with at most `b` distinct values, `_qcut` succeeds and uses the
ascending distinct values minus the minimum as its split points. -/
theorem qcut_lowcard {b : Nat} {col : List Int} (hb : 0 < b) (hne : col ≠ [])
    (hk : (distinctsFrom none (List.insertionSort (· ≤ ·) col)).length ≤ b) :
    qcut b col = .ok
      (col.map (upperBoundBin
        ((distinctsFrom none (List.insertionSort (· ≤ ·) col)).drop 1)),
       (distinctsFrom none (List.insertionSort (· ≤ ·) col)).drop 1) := by
  have hlen0 : ¬ (List.insertionSort (· ≤ ·) col).length = 0 := by
    rw [List.length_insertionSort, List.length_eq_zero]
    exact hne
  have hlenpos : 0 < (List.insertionSort (· ≤ ·) col).length := Nat.pos_of_ne_zero hlen0
  have hcat : (qcutState b col).cat =
      distinctsFrom none (List.insertionSort (· ≤ ·) col) := by
    rw [qcutState_eq]
    have h := qcutWalk_dedup (b := b) (List.insertionSort (· ≤ ·) col)
      (qcutInit b (List.insertionSort (· ≤ ·) col).length)
      (by simpa [qcutInit] using hk)
      (fun _ => ⟨rfl, rfl, ceilDiv_pos hlenpos hb⟩)
      (fun l hl => by simp [qcutInit] at hl)
    simpa [qcutInit] using h
  rw [qcut, if_neg hlen0, if_neg (by omega : ¬ b = 0), if_pos (by rw [hcat]; exact hk), hcat]

/-- In the distinct-value split points (minus the minimum), the `j`-th distinct
value binary-searches to bucket `j`. -/
theorem upperBoundBin_distinct {d : List Int} (hd : d.Pairwise (· < ·)) {j : Nat}
    (hj : j < d.length) :
    upperBoundBin (d.drop 1) (d.getD j 0) = j := by
  refine threshold_unique (upperBoundBin_threshold (hd.sublist (List.drop_sublist 1 d)))
    ⟨?_, ?_, ?_⟩
  · rw [List.length_drop]; omega
  · intro i hi
    rw [getD_drop_one]
    exact getD_le_getD_of_pairwise hd (by omega) hj
  · intro i hi hilen
    rw [List.length_drop] at hilen
    rw [getD_drop_one]
    exact getD_lt_getD_of_pairwise hd (by omega) (by omega)

theorem getD_map_of_lt {α β : Type} (f : α → β) (l : List α) {n : Nat}
    (h : n < l.length) (d : β) (d' : α) :
    (l.map f).getD n d = f (l.getD n d') := by
  rw [List.getD_eq_getElem?_getD, List.getElem?_map, List.getElem?_eq_getElem h,
    List.getD_eq_getElem?_getD, List.getElem?_eq_getElem h]
  rfl

theorem getD_range {n f : Nat} (h : f < n) : (List.range n).getD f 0 = f := by
  rw [List.getD_eq_getElem?_getD, List.getElem?_range h]
  rfl

theorem column_length (x : List (List Int)) (f : Nat) : (column x f).length = x.length :=
  List.length_map x _

theorem column_getD {x : List (List Int)} {i : Nat} (hi : i < x.length) (f : Nat) :
    (column x f).getD i 0 = (x.getD i []).getD f 0 :=
  getD_map_of_lt _ x hi 0 []

/-! ### The `build_maps` specification -/

/-- Unfolding a successful feature loop: each recorded column, bucket count and
padded split-point list comes from a successful `_qcut` of that feature. -/
theorem buildLoop_ok_spec {buckets : Nat} {x : List (List Int)} :
    ∀ {fs : List Nat} {cols : List (List Int)} {fb : List Nat} {sps : List (List SP)},
      buildLoop buckets x fs = .ok (cols, fb, sps) →
      cols.length = fs.length ∧ fb.length = fs.length ∧ sps.length = fs.length ∧
      ∀ j, j < fs.length →
        ∃ bins sp, qcut buckets (column x (fs.getD j 0)) = .ok (bins, sp) ∧
          cols.getD j [] = bins.map toInt8 ∧
          fb.getD j 0 = Nat.max sp.length (buckets + 1) ∧
          sps.getD j [] = sp.map SP.fin ++ List.replicate (buckets + 1 - sp.length) SP.inf := by
  intro fs
  induction fs with
  | nil =>
    intro cols fb sps h
    rw [buildLoop] at h
    injection h with h'
    injection h' with h1 h2
    injection h2 with h2 h3
    subst h1; subst h2; subst h3
    exact ⟨rfl, rfl, rfl, fun j hj => absurd hj (Nat.not_lt_zero j)⟩
  | cons f fs ih =>
    intro cols fb sps h
    rw [buildLoop] at h
    cases hq : qcut buckets (column x f) with
    | error e => rw [hq] at h; cases h
    | ok p =>
      obtain ⟨bins, sp⟩ := p
      rw [hq] at h
      cases hr : buildLoop buckets x fs with
      | error e => rw [hr] at h; cases h
      | ok q =>
        obtain ⟨cols', fb', sps'⟩ := q
        rw [hr] at h
        injection h with h'
        injection h' with h1 h2
        injection h2 with h2 h3
        subst h1; subst h2; subst h3
        obtain ⟨hl1, hl2, hl3, hall⟩ := ih hr
        refine ⟨by simp [hl1], by simp [hl2], by simp [hl3], ?_⟩
        intro j hj
        cases j with
        | zero =>
          exact ⟨bins, sp, by simpa using hq, by simp, by simp, by simp⟩
        | succ j =>
          obtain ⟨bins', sp', h1, h2, h3, h4⟩ := hall j (by simpa using hj)
          exact ⟨bins', sp', by simpa using h1, by simpa using h2,
            by simpa using h3, by simpa using h4⟩

/-- Unfolding a successful `build_maps` into its stored fields. -/
theorem buildMaps_ok_fields {c : OrderMapContext} {x : List (List Int)} {buckets : Nat}
    {ctx : OrderMapContext} (h : buildMaps c x buckets = .ok ctx) :
    ∃ cols fb sps,
      buildLoop buckets x (List.range (x.headD []).length) = .ok (cols, fb, sps) ∧
      ctx.order_map =
        some ((List.range x.length).map fun i => cols.map fun col => col.getD i 0) ∧
      ctx.split_points = some sps ∧ ctx.feature_buckets = some fb ∧
      ctx.features = some (x.headD []).length ∧ ctx.buckets = some buckets ∧
      ctx.order_map_shape = some (x.length, (x.headD []).length) := by
  rw [buildMaps] at h
  cases hr : buildLoop buckets x (List.range (x.headD []).length) with
  | error e => rw [hr] at h; cases h
  | ok q =>
    obtain ⟨cols, fb, sps⟩ := q
    rw [hr] at h
    injection h with h'
    subst h'
    exact ⟨cols, fb, sps, rfl, rfl, rfl, rfl, rfl, rfl, rfl⟩

/-- The stored order-map cell `(i, f)` of a successful build is the int8 cast
of the binary-search bucket of sample `i` of feature `f`, and the stored
split-point list and bucket count of feature `f` are the padded versions of
that feature's `_qcut` output. -/
theorem buildMaps_cell {c : OrderMapContext} {x : List (List Int)} {buckets : Nat}
    {ctx : OrderMapContext} (h : buildMaps c x buckets = .ok ctx)
    {i f : Nat} (hi : i < x.length) (hf : f < (x.headD []).length)
    {om : List (List Int)} (hom : ctx.order_map = some om)
    {bins : List Nat} {sp : List Int}
    (hq : qcut buckets (column x f) = .ok (bins, sp))
    (hbins : bins.length = x.length) :
    (om.getD i []).getD f 0 = toInt8 (bins.getD i 0) ∧
    (∀ sps, ctx.split_points = some sps →
      sps.getD f [] = sp.map SP.fin ++ List.replicate (buckets + 1 - sp.length) SP.inf) ∧
    (∀ fb, ctx.feature_buckets = some fb →
      fb.getD f 0 = Nat.max sp.length (buckets + 1)) := by
  obtain ⟨cols, fb', sps', hloop, hom', hsps', hfb', _, _, _⟩ := buildMaps_ok_fields h
  obtain ⟨hl1, _, _, hall⟩ := buildLoop_ok_spec hloop
  rw [List.length_range] at hl1
  obtain ⟨bins', sp', hq', hcol, hfbj, hspj⟩ := hall f (by simpa using hf)
  rw [getD_range hf] at hq'
  rw [hq] at hq'
  injection hq' with hq''
  injection hq'' with hb' hs'
  subst hb'; subst hs'
  have hom2 : om = (List.range x.length).map fun i => cols.map fun col => col.getD i 0 := by
    rw [hom] at hom'
    injection hom'
  refine ⟨?_, ?_, ?_⟩
  · rw [hom2]
    rw [getD_map_of_lt _ _ (by simpa using hi) _ 0]
    rw [getD_range hi]
    rw [getD_map_of_lt _ _ (show f < cols.length by omega) _ []]
    rw [hcol]
    exact getD_map_of_lt toInt8 bins (show i < bins.length by omega) 0 0
  · intro sps hsps
    rw [hsps] at hsps'
    injection hsps' with e
    rw [e]
    exact hspj
  · intro fb hfb
    rw [hfb] at hfb'
    injection hfb' with e
    rw [e]
    exact hfbj

/-! ### Frame-model equivalence: the threaded build leaves `x` unchanged and
computes exactly what `buildMaps` computes -/

theorem set_getD_self : ∀ (row : List Int) (f : Nat), row.set f (row.getD f 0) = row := by
  intro row
  induction row with
  | nil => intro f; rfl
  | cons a t ih =>
    intro f
    cases f with
    | zero => rfl
    | succ f => simpa [List.set_cons_succ] using ih f

theorem writeColumn_column_self (x : List (List Int)) (f : Nat) :
    writeColumn x f (column x f) = x := by
  induction x with
  | nil => rfl
  | cons row t ih =>
    show (row.set f (row.getD f 0)) :: writeColumn t f (column t f) = row :: t
    rw [set_getD_self, ih]

theorem qcutFr_eq (b : Nat) (x : List Int) : qcutFr b x = (x, qcut b x) := by
  rw [qcutFr, qcut]
  simp only [npSort, npVectorize]
  split_ifs <;> rfl

theorem buildLoopFr_eq (buckets : Nat) :
    ∀ (fs : List Nat) (x : List (List Int)),
      buildLoopFr buckets x fs = (x, buildLoop buckets x fs) := by
  intro fs
  induction fs with
  | nil => intro x; rfl
  | cons f fs ih =>
    intro x
    rw [buildLoopFr, buildLoop, qcutFr_eq]
    cases hq : qcut buckets (column x f) with
    | error e => simp [writeColumn_column_self]
    | ok p =>
      obtain ⟨bins, sp⟩ := p
      simp only [writeColumn_column_self, ih x]
      cases hr : buildLoop buckets x fs with
      | error e => rfl
      | ok q => rfl

theorem buildMapsFr_eq (x : List (List Int)) (buckets : Nat) :
    buildMapsFr x buckets = (x, buildMaps initCtx x buckets) := by
  rw [buildMapsFr, buildMaps, buildLoopFr_eq]
  cases hr : buildLoop buckets x (List.range (x.headD []).length) with
  | error e => rfl
  | ok q => obtain ⟨cols, fb, sps⟩ := q; rfl

/-! ### Padded split-point lists and the left-closed bucket predicate -/

theorem padded_length {sp : List Int} {buckets : Nat} (h : sp.length ≤ buckets) :
    (sp.map SP.fin ++ List.replicate (buckets + 1 - sp.length) SP.inf).length
      = buckets + 1 := by
  rw [List.length_append, List.length_map, List.length_replicate]
  omega

theorem padded_getD_lt {sp : List Int} {buckets j : Nat} (hj : j < sp.length) :
    (sp.map SP.fin ++ List.replicate (buckets + 1 - sp.length) SP.inf).getD j SP.inf
      = SP.fin (sp.getD j 0) := by
  rw [List.getD_eq_getElem?_getD, List.getElem?_append_left (by simpa using hj),
    List.getElem?_map, List.getElem?_eq_getElem hj, List.getD_eq_getElem?_getD,
    List.getElem?_eq_getElem hj]
  rfl

theorem padded_getD_ge {sp : List Int} {buckets j : Nat} (h1 : sp.length ≤ j) :
    (sp.map SP.fin ++ List.replicate (buckets + 1 - sp.length) SP.inf).getD j SP.inf
      = SP.inf := by
  rw [List.getD_eq_getElem?_getD, List.getElem?_append_right (by simpa using h1),
    List.getElem?_replicate]
  split <;> rfl

theorem finPart_padded (sp : List Int) (k : Nat) :
    finPart (sp.map SP.fin ++ List.replicate k SP.inf) = sp := by
  induction sp with
  | nil =>
    cases k with
    | zero => rfl
    | succ k => rfl
  | cons v rest ih =>
    show v :: finPart (rest.map SP.fin ++ List.replicate k SP.inf) = v :: rest
    rw [ih]

theorem toInt8_of_le {n : Nat} (h : n ≤ 127) : toInt8 n = (n : Int) := by
  rw [toInt8, Int.emod_eq_of_lt (by omega) (by omega)]
  omega

/-- The binary-search threshold bucket satisfies the left-closed interval
characterization over the padded split-point list. -/
theorem leftClosed_padded {sp : List Int} {buckets : Nat} {x : Int} {r : Nat}
    (_hsp : sp.length ≤ buckets) (ht : IsThreshold sp x r) :
    leftClosedBucket (sp.map SP.fin ++ List.replicate (buckets + 1 - sp.length) SP.inf)
      x r := by
  obtain ⟨hr, hlow, hhigh⟩ := ht
  constructor
  · intro j hj
    rw [padded_getD_lt (by omega : j < sp.length)]
    exact hlow j hj
  · intro j hj1 hj2
    rcases Nat.lt_or_ge j sp.length with hc | hc
    · rw [padded_getD_lt hc]
      exact hhigh j hj2 hc
    · rw [padded_getD_ge hc]
      trivial

/-- The left-closed interval characterization determines the bucket uniquely. -/
theorem leftClosed_padded_unique {sp : List Int} {buckets : Nat} {x : Int} {r : Nat}
    (hsp : sp.length ≤ buckets) (ht : IsThreshold sp x r) :
    ∀ r', leftClosedBucket
        (sp.map SP.fin ++ List.replicate (buckets + 1 - sp.length) SP.inf) x r' →
      r' = r := by
  intro r' h'
  by_contra hne
  have hrlen : r ≤ sp.length := ht.1
  rcases Nat.lt_or_ge r' r with hc | hc
  · have hr' : r' < sp.length := by omega
    have h1 : sp.getD r' 0 ≤ x := ht.2.1 r' hc
    have h2 := h'.2 r' (by rw [padded_length hsp]; omega) (le_refl r')
    rw [padded_getD_lt hr'] at h2
    exact absurd h1 (not_le.mpr h2)
  · have hcc : r < r' := by omega
    have h1 := h'.1 r hcc
    rcases Nat.lt_or_ge r sp.length with hd | hd
    · rw [padded_getD_lt hd] at h1
      exact absurd h1 (not_le.mpr (ht.2.2 r (le_refl r) hd))
    · rw [padded_getD_ge hd] at h1
      exact h1

/-- Every feature of a successful build has a successful `_qcut`. -/
theorem buildMaps_qcut_exists {c : OrderMapContext} {x : List (List Int)} {buckets : Nat}
    {ctx : OrderMapContext} (hbuild : buildMaps c x buckets = .ok ctx)
    {f : Nat} (hf : f < (x.headD []).length) :
    ∃ bins sp, qcut buckets (column x f) = .ok (bins, sp) := by
  obtain ⟨cols, fb, sps, hloop, _⟩ := buildMaps_ok_fields hbuild
  obtain ⟨_, _, _, hall⟩ := buildLoop_ok_spec hloop
  obtain ⟨bins, sp, hq, _⟩ := hall f (by simpa using hf)
  rw [getD_range hf] at hq
  exact ⟨bins, sp, hq⟩

/-- A feature touched by a successful build has at least one sample row. -/
theorem rows_pos_of_feature {x : List (List Int)} {f : Nat}
    (hf : f < (x.headD []).length) : 0 < x.length := by
  cases x with
  | nil => simp at hf
  | cons r t => simp

/-- The combined cell/value characterization of a successful build: the stored
cell is the int8 cast of the binary-search bucket of the matrix entry, the
bins agree with it, the split points are strictly ascending with at most
`buckets` entries, and the stored per-feature list is the `inf`-padded
version. -/
theorem buildMaps_cell_value {c : OrderMapContext} {x : List (List Int)} {buckets : Nat}
    {ctx : OrderMapContext} (hb : 0 < buckets) (hbuild : buildMaps c x buckets = .ok ctx)
    {i f : Nat} (hi : i < x.length) (hf : f < (x.headD []).length)
    {om : List (List Int)} (hom : ctx.order_map = some om)
    {bins : List Nat} {sp : List Int}
    (hq : qcut buckets (column x f) = .ok (bins, sp)) :
    (om.getD i []).getD f 0 = toInt8 (upperBoundBin sp ((x.getD i []).getD f 0)) ∧
    bins.getD i 0 = upperBoundBin sp ((x.getD i []).getD f 0) ∧
    sp.Pairwise (· < ·) ∧ sp.length ≤ buckets ∧
    (∀ sps, ctx.split_points = some sps →
      sps.getD f [] = sp.map SP.fin ++ List.replicate (buckets + 1 - sp.length) SP.inf) := by
  obtain ⟨hpair, hlen, hbins⟩ := qcut_ok_spec hb hq
  have hbl : bins.length = x.length := by
    rw [hbins, List.length_map, column_length]
  obtain ⟨hcell, hsps, _⟩ := buildMaps_cell hbuild hi hf hom hq hbl
  have hval : bins.getD i 0 = upperBoundBin sp ((x.getD i []).getD f 0) := by
    rw [hbins, getD_map_of_lt _ _ (by rw [column_length]; exact hi) _ 0, column_getD hi]
  exact ⟨by rw [hcell, hval], hval, hpair, hlen, hsps⟩

/-! ### The claims -/

/-- C1 (corrected): for every successful build with `0 < buckets <= 127`, the
stored cell `order_map[i, f]` is the unique index `b` satisfying the
LEFT-closed interval rule `split_points[f][b-1] <= x[i, f] < split_points[f][b]`
over the stored (padded) split points: every split point strictly below index
`b` is `<= x[i, f]` and every one from `b` on is `> x[i, f]`.  In particular a
value exactly equal to a split point at index `b` is assigned bucket `b + 1`
(the upper bucket), not bucket `b` as the spec claims. -/
theorem C1_order_map_is_left_closed_bucket
    (x : List (List Int)) (buckets : Nat) (c ctx : OrderMapContext)
    (hb : 0 < buckets) (hb7 : buckets ≤ 127)
    (hbuild : buildMaps c x buckets = .ok ctx)
    (_hunif : ∀ row ∈ x, row.length = (x.headD []).length)
    (i f : Nat) (hi : i < x.length) (hf : f < (x.headD []).length)
    (om : List (List Int)) (sps : List (List SP))
    (hom : ctx.order_map = some om) (hsps : ctx.split_points = some sps) :
    leftClosedBucket (sps.getD f []) ((x.getD i []).getD f 0)
      ((om.getD i []).getD f 0).toNat ∧
    ∀ b', leftClosedBucket (sps.getD f []) ((x.getD i []).getD f 0) b' →
      b' = ((om.getD i []).getD f 0).toNat := by
  obtain ⟨bins, sp, hq⟩ := buildMaps_qcut_exists hbuild hf
  obtain ⟨hcell, _, hpair, hlen, hspsEq⟩ := buildMaps_cell_value hb hbuild hi hf hom hq
  have hth := upperBoundBin_threshold (x := (x.getD i []).getD f 0) hpair
  have hub_le : upperBoundBin sp ((x.getD i []).getD f 0) ≤ 127 :=
    le_trans (le_trans hth.1 hlen) hb7
  have htn : ((om.getD i []).getD f 0).toNat
      = upperBoundBin sp ((x.getD i []).getD f 0) := by
    rw [hcell, toInt8_of_le hub_le, Int.toNat_natCast]
  rw [hspsEq sps hsps, htn]
  exact ⟨leftClosed_padded hlen hth, leftClosed_padded_unique hlen hth⟩

/-- C1 witness: on the matrix `[[1],[2],[3],[4]]` with `buckets = 2`
(split points `3, 4, inf`), the stored bucket of the sample with value `3` is
`1`, and `1` is the unique left-closed bucket of `3`. -/
theorem C1_order_map_is_left_closed_bucket_witness :
    leftClosedBucket [SP.fin 3, SP.fin 4, SP.inf] 3 1 ∧
    (∀ b', leftClosedBucket [SP.fin 3, SP.fin 4, SP.inf] 3 b' → b' = 1) :=
  C1_order_map_is_left_closed_bucket X4 2 initCtx ctx4 (by decide) (by decide) rfl
    (by decide) 2 0 (by decide) (by decide)
    [[0], [0], [1], [2]] [[SP.fin 3, SP.fin 4, SP.inf]] rfl rfl

/-- C1 counterexample: on `[[1],[2],[3],[4]]` with `buckets = 2` the stored
split points are `[3, 4, inf]` and the sample with value `3` (equal to the
split point at index 0) is stored in bucket `1`, but bucket `1` violates the
spec's right-closed rule (`split_points[0] < 3` fails). -/
theorem C1_right_closed_tie_cex :
    buildMaps initCtx X4 2 = .ok ctx4 ∧
    ((ctx4.order_map.getD []).getD 2 []).getD 0 0 = 1 ∧
    ¬ rightClosedBucket ((ctx4.split_points.getD []).getD 0 []) 3 1 := by
  refine ⟨rfl, rfl, ?_⟩
  intro hrc
  exact absurd (hrc.1 0 (by decide)) (by decide)

/-- C2 (corrected): after a successful build, each feature's unpadded
split-point list has at most `buckets` entries (it can reach `buckets`, one
more than the `buckets - 1` the spec claims), the stored padded list has
exactly `buckets + 1` entries (not `buckets`), and every padding entry is the
`+inf` sentinel. -/
theorem C2_split_point_padding_shape
    (x : List (List Int)) (buckets : Nat) (c ctx : OrderMapContext)
    (hb : 0 < buckets) (hbuild : buildMaps c x buckets = .ok ctx)
    (f : Nat) (hf : f < (x.headD []).length)
    (sps : List (List SP)) (hsps : ctx.split_points = some sps) :
    (sps.getD f []).length = buckets + 1 ∧
    (finPart (sps.getD f [])).length ≤ buckets ∧
    (sps.getD f []).drop (finPart (sps.getD f [])).length
      = List.replicate (buckets + 1 - (finPart (sps.getD f [])).length) SP.inf := by
  have hx0 : 0 < x.length := rows_pos_of_feature hf
  obtain ⟨cols, fb', sps', hloop, hom', hsps', _, _, _, _⟩ := buildMaps_ok_fields hbuild
  obtain ⟨bins, sp, hq⟩ := buildMaps_qcut_exists hbuild hf
  obtain ⟨_, _, _, hlen, hspsEq⟩ := buildMaps_cell_value hb hbuild hx0 hf hom' hq
  rw [hspsEq sps hsps, finPart_padded]
  refine ⟨padded_length hlen, hlen, ?_⟩
  have hml : (sp.map SP.fin).length = sp.length := List.length_map sp SP.fin
  rw [← hml, List.drop_left]

/-- C2 witness: the build of `[[1],[2],[3],[4]]` with `buckets = 2` stores
`[3, 4, inf]` for its single feature: length `3 = buckets + 1`, `2 <= buckets`
unpadded entries, and the tail is one `inf` sentinel. -/
theorem C2_split_point_padding_shape_witness :
    ([SP.fin 3, SP.fin 4, SP.inf] : List SP).length = 2 + 1 ∧
    (finPart [SP.fin 3, SP.fin 4, SP.inf]).length ≤ 2 ∧
    ([SP.fin 3, SP.fin 4, SP.inf] : List SP).drop
        (finPart [SP.fin 3, SP.fin 4, SP.inf]).length
      = List.replicate (2 + 1 - (finPart [SP.fin 3, SP.fin 4, SP.inf]).length) SP.inf :=
  C2_split_point_padding_shape X4 2 initCtx ctx4 (by decide) rfl 0 (by decide)
    [[SP.fin 3, SP.fin 4, SP.inf]] rfl

/-- C2 counterexample: on `[[1],[2],[3],[4]]` with `buckets = 2` the stored
padded list has `3` entries, not `buckets = 2`, and it holds `2` unpadded split
points, more than `buckets - 1 = 1`. -/
theorem C2_padding_length_cex :
    buildMaps initCtx X4 2 = .ok ctx4 ∧
    ((ctx4.split_points.getD []).getD 0 []).length = 3 ∧ (3 : Nat) ≠ 2 ∧
    (finPart ((ctx4.split_points.getD []).getD 0 [])).length = 2 ∧
    ¬ ((2 : Nat) ≤ 2 - 1) :=
  ⟨rfl, rfl, by decide, rfl, by decide⟩

/-- C3 (corrected): for a non-empty column whose number `k` of distinct values
is at most `buckets`, `_qcut` succeeds, its unpadded split points are exactly
the ascending distinct values with the minimum removed, and the `j`-th distinct
value maps to bucket `j`.  However the recorded per-feature bucket count is
always `buckets + 1` (the padding loop overshoots), not `k` as the spec claims
— e.g. a constant column of five `5`s with `buckets = 4` yields all samples in
bucket `0` but a recorded count of `5`, not `1`. -/
theorem C3_low_cardinality_exactness
    (col : List Int) (b : Nat) (hb : 0 < b) (hne : col ≠ [])
    (hk : (distinctsFrom none (List.insertionSort (· ≤ ·) col)).length ≤ b) :
    qcut b col = .ok
      (col.map (upperBoundBin
        ((distinctsFrom none (List.insertionSort (· ≤ ·) col)).drop 1)),
       (distinctsFrom none (List.insertionSort (· ≤ ·) col)).drop 1) ∧
    (∀ j, j < (distinctsFrom none (List.insertionSort (· ≤ ·) col)).length →
      upperBoundBin ((distinctsFrom none (List.insertionSort (· ≤ ·) col)).drop 1)
        ((distinctsFrom none (List.insertionSort (· ≤ ·) col)).getD j 0) = j) ∧
    (∀ (x : List (List Int)) (buckets : Nat) (c ctx : OrderMapContext)
        (fb : List Nat) (f : Nat),
      0 < buckets → buildMaps c x buckets = .ok ctx →
      ctx.feature_buckets = some fb → f < (x.headD []).length →
      fb.getD f 0 = buckets + 1) := by
  refine ⟨qcut_lowcard hb hne hk, ?_, ?_⟩
  · intro j hj
    have hd : (distinctsFrom none (List.insertionSort (· ≤ ·) col)).Pairwise (· < ·) :=
      (distinctsFrom_spec (List.insertionSort (· ≤ ·) col) none
        (List.sorted_insertionSort (· ≤ ·) col) (fun lv hlv => by cases hlv)).1
    exact upperBoundBin_distinct hd hj
  · intro x buckets c ctx fb f hbk hbuild hfb hf
    have hx0 : 0 < x.length := rows_pos_of_feature hf
    obtain ⟨cols, fb', sps', hloop, hom', _, hfb', _, _, _⟩ := buildMaps_ok_fields hbuild
    obtain ⟨bins, sp, hq⟩ := buildMaps_qcut_exists hbuild hf
    obtain ⟨_, hlen, _⟩ := qcut_ok_spec hbk hq
    obtain ⟨_, _, _, hall⟩ := buildLoop_ok_spec hloop
    obtain ⟨bins', sp', hq', _, hfbj, _⟩ := hall f (by simpa using hf)
    rw [getD_range hf] at hq'
    rw [hq] at hq'
    injection hq' with hq''
    injection hq'' with hb' hs'
    subst hb'
    subst hs'
    rw [hfb] at hfb'
    injection hfb' with e
    rw [e, hfbj]
    exact Nat.max_eq_right (by omega)

/-- C3 witness: the constant column `[5,5,5,5,5]` with `buckets = 4` has one
distinct value, `_qcut` maps every sample to bucket `0` with no split points,
the single distinct value maps to bucket `0`, and the recorded bucket count of
the corresponding build is `4 + 1 = 5`. -/
theorem C3_low_cardinality_exactness_witness :
    qcut 4 [5, 5, 5, 5, 5] = .ok ([0, 0, 0, 0, 0], []) ∧
    upperBoundBin [] 5 = 0 ∧
    ([5] : List Nat).getD 0 0 = 4 + 1 := by
  have h := C3_low_cardinality_exactness [5, 5, 5, 5, 5] 4 (by decide) (by decide) (by decide)
  exact ⟨h.1, h.2.1 0 (by decide), h.2.2 X5 4 initCtx ctx5 [5] 0 (by decide) rfl rfl (by decide)⟩

/-- C3 counterexample: building `[[5],[5],[5],[5],[5]]` with `buckets = 4`
records a per-feature bucket count of `5`, not `1` as the spec's
low-cardinality rule (`count = k`) requires. -/
theorem C3_bucket_count_cex :
    buildMaps initCtx X5 4 = .ok ctx5 ∧
    (ctx5.feature_buckets.getD []).getD 0 0 = 5 ∧ (5 : Nat) ≠ 1 :=
  ⟨rfl, rfl, by decide⟩

/-- C4 (corrected): an empty column always fails the cut with the assertion
error, and a non-empty column with at most `buckets` distinct values always
succeeds; but the cut does *not* succeed on every non-empty column: it fails
with an `IndexError` exactly when more than `buckets` categories were captured
while the equal-frequency walk emitted no split point. -/
theorem C4_failure_characterization (b : Nat) (col : List Int) (hb : 0 < b) :
    qcut b ([] : List Int) = .error "can not qcut empty x" ∧
    (col ≠ [] → (distinctsFrom none (List.insertionSort (· ≤ ·) col)).length ≤ b →
      ∃ bins sp, qcut b col = .ok (bins, sp)) ∧
    ((∃ e, qcut b col = .error e) ↔
      col = [] ∨ (b < (qcutState b col).cat.length ∧ (qcutState b col).sps = [])) := by
  refine ⟨rfl, ?_, ?_⟩
  · intro hne hk
    exact ⟨_, _, qcut_lowcard hb hne hk⟩
  · rw [qcut]
    by_cases h0 : (List.insertionSort (· ≤ ·) col).length = 0
    · rw [if_pos h0]
      rw [List.length_insertionSort, List.length_eq_zero] at h0
      simp [h0]
    · rw [if_neg h0, if_neg (by omega : ¬ b = 0)]
      have hcol : ¬ col = [] := by
        rw [List.length_insertionSort, List.length_eq_zero] at h0
        exact h0
      by_cases hlow : (qcutState b col).cat.length ≤ b
      · rw [if_pos hlow]
        constructor
        · rintro ⟨e, he⟩; cases he
        · intro hr
          rcases hr with hr | hr
          · exact absurd hr hcol
          · omega
      · rw [if_neg hlow]
        by_cases hnil : (qcutState b col).sps = []
        · rw [if_pos hnil]
          constructor
          · intro _; right; exact ⟨by omega, hnil⟩
          · intro _; exact ⟨_, rfl⟩
        · rw [if_neg hnil]
          by_cases hlast : (qcutState b col).sps.getLastD 0
              ≠ (List.insertionSort (· ≤ ·) col).getLastD 0
          · rw [if_pos hlast]
            constructor
            · rintro ⟨e, he⟩; cases he
            · intro hr
              rcases hr with hr | hr
              · exact absurd hr hcol
              · exact absurd hr.2 hnil
          · rw [if_neg hlast]
            constructor
            · rintro ⟨e, he⟩; cases he
            · intro hr
              rcases hr with hr | hr
              · exact absurd hr hcol
              · exact absurd hr.2 hnil

/-- C4 witness: with `buckets = 2`, the empty column fails with the assert
message, the two-valued column `[10, 20]` succeeds, and `[10, 20]` matches the
failure characterization (no failure). -/
theorem C4_failure_characterization_witness :
    qcut 2 ([] : List Int) = .error "can not qcut empty x" ∧
    (∃ bins sp, qcut 2 [10, 20] = .ok (bins, sp)) ∧
    ((∃ e, qcut 2 [10, 20] = .error e) ↔
      ([10, 20] : List Int) = [] ∨
        (2 < (qcutState 2 [10, 20]).cat.length ∧ (qcutState 2 [10, 20]).sps = [])) := by
  have h := C4_failure_characterization 2 [10, 20] (by decide)
  exact ⟨h.1, h.2.1 (by decide) (by decide), h.2.2⟩

/-- C4 counterexample: the non-empty column `[1, 2, 9, 9, 9, 9]` with
`buckets = 2` aborts with an `IndexError` (the walk emits no split point while
three categories are captured), refuting "fails only if the column is empty". -/
theorem C4_nonempty_failure_cex :
    qcut 2 [1, 2, 9, 9, 9, 9] = .error "IndexError: list index out of range" ∧
    ([1, 2, 9, 9, 9, 9] : List Int) ≠ [] :=
  ⟨rfl, by decide⟩

/-- C5 (corrected): whenever `_qcut` takes the equal-frequency-walk path (more
than `buckets` captured categories) and succeeds, the last unpadded split
point equals the maximum value of the column (the walk either emitted it or it
is appended), so the last bucket's upper bound covers the maximum.  On the
low-cardinality path the guarantee can fail when the walk broke early; see the
counterexample. -/
theorem C5_walk_path_covers_max (b : Nat) (col : List Int) (bins : List Nat)
    (sp : List Int) (hb : 0 < b) (hpath : b < (qcutState b col).cat.length)
    (h : qcut b col = .ok (bins, sp)) :
    sp ≠ [] ∧ sp.getLastD 0 = (List.insertionSort (· ≤ ·) col).getLastD 0 := by
  rw [qcut] at h
  by_cases h0 : (List.insertionSort (· ≤ ·) col).length = 0
  · rw [if_pos h0] at h; cases h
  rw [if_neg h0, if_neg (by omega : ¬ b = 0), if_neg (by omega)] at h
  by_cases hnil : (qcutState b col).sps = []
  · rw [if_pos hnil] at h; cases h
  rw [if_neg hnil] at h
  by_cases hlast : (qcutState b col).sps.getLastD 0
      ≠ (List.insertionSort (· ≤ ·) col).getLastD 0
  · rw [if_pos hlast] at h
    injection h with h'
    injection h' with _ hsp
    subst hsp
    exact ⟨by simp, by rw [List.getLastD_concat]⟩
  · rw [if_neg hlast] at h
    injection h with h'
    injection h' with _ hsp
    subst hsp
    exact ⟨hnil, not_ne_iff.mp hlast⟩

/-- C5 witness: on `[1, 2, 3, 4]` with `buckets = 2` the walk path is taken
(three categories captured) and the final split points `[3, 4]` end with the
maximum `4`. -/
theorem C5_walk_path_covers_max_witness :
    ([3, 4] : List Int) ≠ [] ∧
    ([3, 4] : List Int).getLastD 0
      = (List.insertionSort (· ≤ ·) [1, 2, 3, 4]).getLastD 0 :=
  C5_walk_path_covers_max 2 [1, 2, 3, 4] [0, 0, 1, 2] [3, 4] (by decide) (by decide) rfl

/-- C5 counterexample: on the column `[1, 1, 2, 2, 3, 9]` with `buckets = 3`
the cut succeeds with split points `[2, 3]` (the early `break` sent it down
the low-cardinality path), yet the maximum value `9` exceeds the last
non-sentinel split point `3` — refuting "the maximum value is always <= the
last non-sentinel split point". -/
theorem C5_max_above_last_split_cex :
    qcut 3 [1, 1, 2, 2, 3, 9] = .ok ([0, 0, 1, 1, 2, 2], [2, 3]) ∧
    (List.insertionSort (· ≤ ·) [1, 1, 2, 2, 3, 9]).getLastD 0 = 9 ∧
    ¬ ((9 : Int) ≤ ([2, 3] : List Int).getLastD 0) :=
  ⟨rfl, rfl, by decide⟩

/-- C6 (corrected): before any build, `get_order_map`, `get_features`,
`get_feature_buckets` and `get_split_points` do NOT report an error — they
return the absent value `None`; only `get_feature_bucket_at` (subscripting
`None`, a `TypeError`) and `get_order_map_shape` (missing attribute,
`AttributeError`) raise.  After a build, `get_feature_bucket_at` raises
`IndexError` exactly for indices outside the Python range
`[-features, features)`.  Accessors are pure reads and leave the context
unchanged by construction. -/
theorem C6_accessor_behavior :
    get_order_map initCtx = .ok none ∧
    get_features initCtx = .ok none ∧
    get_feature_buckets initCtx = .ok none ∧
    get_split_points initCtx = .ok none ∧
    (∀ i : Int, get_feature_bucket_at initCtx i
      = .error "TypeError: NoneType object is not subscriptable") ∧
    get_order_map_shape initCtx = .error "AttributeError: order_map_shape" ∧
    (∀ (ctx : OrderMapContext) (fb : List Nat) (i : Int),
      ctx.feature_buckets = some fb →
      ((∃ e, get_feature_bucket_at ctx i = .error e) ↔
        (i < -(fb.length : Int) ∨ (fb.length : Int) ≤ i))) := by
  refine ⟨rfl, rfl, rfl, rfl, fun i => rfl, rfl, ?_⟩
  intro ctx fb i hfb
  have hgf : get_feature_bucket_at ctx i = pyGet fb i := by
    rw [get_feature_bucket_at, hfb]
  rw [hgf, pyGet]
  by_cases hi0 : i < 0
  · simp only [if_pos hi0]
    by_cases hcond : 0 ≤ i + (fb.length : Int) ∧ i + (fb.length : Int) < (fb.length : Int)
    · rw [if_pos hcond]
      obtain ⟨h1, h2⟩ := hcond
      constructor
      · rintro ⟨e, he⟩; cases he
      · intro hr
        exfalso
        rcases hr with hr | hr <;> omega
    · rw [if_neg hcond]
      constructor
      · intro _
        left
        by_contra hno
        exact hcond ⟨by omega, by omega⟩
      · intro _
        exact ⟨_, rfl⟩
  · simp only [if_neg hi0]
    by_cases hcond : 0 ≤ i ∧ i < (fb.length : Int)
    · rw [if_pos hcond]
      obtain ⟨h1, h2⟩ := hcond
      constructor
      · rintro ⟨e, he⟩; cases he
      · intro hr
        exfalso
        rcases hr with hr | hr <;> omega
    · rw [if_neg hcond]
      constructor
      · intro _
        right
        by_contra hno
        exact hcond ⟨by omega, by omega⟩
      · intro _
        exact ⟨_, rfl⟩

/-- C6 witness: on the built context of `[[1],[2],[3],[4]]` (one feature),
`get_feature_bucket_at 5` raises exactly because `5` is outside
`[-1, 1)`. -/
theorem C6_accessor_behavior_witness :
    (∃ e, get_feature_bucket_at ctx4 5 = .error e) ↔
      ((5 : Int) < -((([3] : List Nat)).length : Int) ∨
        ((([3] : List Nat)).length : Int) ≤ 5) :=
  C6_accessor_behavior.2.2.2.2.2.2 ctx4 [3] 5 rfl

/-- C6 counterexample: `get_order_map` invoked on a freshly constructed
context returns `None` successfully instead of reporting an error, refuting
"every accessor reports an error when invoked before any successful build". -/
theorem C6_get_order_map_no_error_cex :
    get_order_map initCtx = .ok none :=
  rfl

/-- C7 (corrected): the order map is stored with dtype `int8`, which holds
`[0, buckets]` only when `buckets <= 127`.  Under that bound every stored cell
equals the bucket index computed by the cutter exactly (and that index is at
most `buckets`); for larger bucket counts the stored cell can wrap around, see
the counterexample. -/
theorem C7_int8_cell_exact
    (x : List (List Int)) (buckets : Nat) (c ctx : OrderMapContext)
    (hb : 0 < buckets) (h127 : buckets ≤ 127)
    (hbuild : buildMaps c x buckets = .ok ctx)
    (_hunif : ∀ row ∈ x, row.length = (x.headD []).length)
    (i f : Nat) (hi : i < x.length) (hf : f < (x.headD []).length)
    (om : List (List Int)) (hom : ctx.order_map = some om)
    (bins : List Nat) (sp : List Int)
    (hq : qcut buckets (column x f) = .ok (bins, sp)) :
    (om.getD i []).getD f 0 = (bins.getD i 0 : Int) ∧ bins.getD i 0 ≤ buckets := by
  obtain ⟨hcell, hval, hpair, hlen, _⟩ := buildMaps_cell_value hb hbuild hi hf hom hq
  have hth := upperBoundBin_threshold (x := (x.getD i []).getD f 0) hpair
  have hle : bins.getD i 0 ≤ buckets := by
    rw [hval]
    exact le_trans hth.1 hlen
  refine ⟨?_, hle⟩
  rw [hcell, ← hval, toInt8_of_le (by omega)]

/-- C7 witness: on `[[1],[2],[3],[4]]` with `buckets = 2`, the stored cell of
the last sample equals the computed bucket `2` exactly, and `2 <= buckets`. -/
theorem C7_int8_cell_exact_witness :
    (([[0], [0], [1], [2]] : List (List Int)).getD 3 []).getD 0 0
      = (([0, 0, 1, 2] : List Nat).getD 3 0 : Int) ∧
    ([0, 0, 1, 2] : List Nat).getD 3 0 ≤ 2 :=
  C7_int8_cell_exact X4 2 initCtx ctx4 (by decide) (by decide) rfl (by decide)
    3 0 (by decide) (by decide) [[0], [0], [1], [2]] rfl [0, 0, 1, 2] [3, 4] rfl

set_option maxRecDepth 40000 in
/-- C7 counterexample: with `buckets = 128` on the column `1..257`, the cutter
computes bucket `128` for the maximum sample, but the `int8` order map stores
`-128`: the stored cell does not equal the computed index, refuting the claim
for every positive bucket count. -/
theorem C7_int8_wraparound_cex :
    (bigOm.getD 256 []).getD 0 0 = -128 ∧
    (qcutBins 128 bigCol).getD 256 0 = 128 ∧
    (bigOm.getD 256 []).getD 0 0 ≠ ((qcutBins 128 bigCol).getD 256 0 : Int) := by
  refine ⟨?_, ?_, ?_⟩
  · decide
  · decide
  · decide

/-- C8 (confirmed): after every successful build, the non-sentinel entries of
every stored split-point list are strictly ascending (all pairs, hence also
all adjacent pairs, are strictly increasing). -/
theorem C8_split_points_strictly_ascending
    (x : List (List Int)) (buckets : Nat) (c ctx : OrderMapContext)
    (hb : 0 < buckets) (hbuild : buildMaps c x buckets = .ok ctx)
    (f : Nat) (hf : f < (x.headD []).length)
    (sps : List (List SP)) (hsps : ctx.split_points = some sps) :
    (finPart (sps.getD f [])).Pairwise (· < ·) := by
  have hx0 : 0 < x.length := rows_pos_of_feature hf
  obtain ⟨cols, fb', sps', hloop, hom', _, _, _, _, _⟩ := buildMaps_ok_fields hbuild
  obtain ⟨bins, sp, hq⟩ := buildMaps_qcut_exists hbuild hf
  obtain ⟨_, _, hpair, _, hspsEq⟩ := buildMaps_cell_value hb hbuild hx0 hf hom' hq
  rw [hspsEq sps hsps, finPart_padded]
  exact hpair

/-- C8 witness: the stored split points of the build of `[[1],[2],[3],[4]]`
with `buckets = 2` have the strictly ascending non-sentinel part `[3, 4]`. -/
theorem C8_split_points_strictly_ascending_witness :
    (finPart [SP.fin 3, SP.fin 4, SP.inf]).Pairwise (· < ·) :=
  C8_split_points_strictly_ascending X4 2 initCtx ctx4 (by decide) rfl 0 (by decide)
    [[SP.fin 3, SP.fin 4, SP.inf]] rfl

/-- C9 (confirmed): `build_maps` reads nothing from the previous context (its
result is the same from any starting context, so a second build fully replaces
all state with no accumulation), and rebuilding from a successful build with
the same inputs returns the identical context. -/
theorem C9_deterministic_full_replacement :
    ∀ (c₁ c₂ : OrderMapContext) (x : List (List Int)) (b : Nat),
      buildMaps c₁ x b = buildMaps c₂ x b ∧
      (buildMaps c₁ x b).bind (fun ctx => buildMaps ctx x b) = buildMaps c₁ x b := by
  intro c₁ c₂ x b
  refine ⟨rfl, ?_⟩
  cases h : buildMaps c₁ x b with
  | error e => rfl
  | ok ctx =>
    rw [Except.bind]
    exact h

/-- C10 (confirmed): the build never modifies the input feature matrix.  In
the frame model, where the state of `x` is threaded through `np.sort` (which
returns a fresh sorted copy), the column views, and `np.vectorize` (which
allocates its result), the matrix after `build_maps` equals the matrix before,
and the threaded computation returns exactly what `build_maps` returns. -/
theorem C10_input_matrix_unchanged :
    ∀ (x : List (List Int)) (buckets : Nat) (c : OrderMapContext),
      (buildMapsFr x buckets).1 = x ∧
      (buildMapsFr x buckets).2 = buildMaps c x buckets := by
  intro x buckets c
  rw [buildMapsFr_eq]
  exact ⟨rfl, rfl⟩

end OrderMapCtx
